import Mathlib

/-!
# Verification of the SJJP Requests Portal (`src/app.py`, v3.6)

A shallow embedding of the request-lifecycle and authorization logic of the
single-file Streamlit application `app.py`. Python dict values are modelled by
the inductive `PVal`; a request row (a JSON object) is modelled by the
structure `Req`, whose fields are `Option PVal` so that a missing dictionary
key is `none`. Python's `uuid.uuid4()` is modelled by a counter that yields
the value `PVal.uuid n`; the constructor is distinct from every string value,
which makes explicit the assumption that a freshly generated UUID string never
collides with pre-existing data. File I/O is modelled by an explicit file
state (`FileState`) mapped over paths (`Store`).
-/

set_option autoImplicit false

namespace SJJP

/-- A Python value as it can occur in the JSON rows manipulated by `app.py`:
a string, an integer, a boolean, or a freshly generated UUID string (kept as a
separate constructor to record its freshness). -/
inductive PVal where
  | str (s : String)
  | int (n : Int)
  | bool (b : Bool)
  | uuid (n : Nat)
deriving DecidableEq, Repr

/-- Python `str(...)` applied to a `PVal`. -/
def pyStr : PVal → String
  | .str s => s
  | .int n => toString n
  | .bool b => if b then "True" else "False"
  | .uuid n => "uuid-" ++ toString n

/-- Python truthiness of a `PVal` (`if rid:`-style tests in `app.py`). -/
def truthyV : PVal → Bool
  | .str s => decide (s ≠ "")
  | .int n => decide (n ≠ 0)
  | .bool b => b
  | .uuid _ => true

/-- Python truthiness of an optional value (a missing key, i.e. `None`, is
falsy). -/
def truthy : Option PVal → Bool
  | none => false
  | some v => truthyV v

/-- A request row, i.e. one object of `data/requests.json`. Each field is
`Option PVal`: `none` models a missing dictionary key. The field names are the
dictionary keys used by `app.py` (`id`, `school_id`, `category`, `material`,
`quantity`, `date`, `ps_number`, `status`). -/
structure Req where
  id : Option PVal := none
  school_id : Option PVal := none
  category : Option PVal := none
  material : Option PVal := none
  quantity : Option PVal := none
  date : Option PVal := none
  ps_number : Option PVal := none
  status : Option PVal := none
deriving DecidableEq, Repr

/-- The logged-in user dictionary produced by `require_login` and consumed by
the page handlers (`user["ps_number"]`, `user["credential"]`, `user["name"]`). -/
structure SessionUser where
  ps_number : PVal
  credential : String
  name : String
deriving DecidableEq, Repr

/-- One row of the edited dataframe returned by `st.data_editor` on the
Manage Requests page: the `Delete` checkbox column plus the request columns.
A field is `none` when the column value is absent for that row. -/
structure ERow where
  del : Option PVal := none
  id : Option PVal := none
  school_id : Option PVal := none
  category : Option PVal := none
  material : Option PVal := none
  quantity : Option PVal := none
  date : Option PVal := none
  status : Option PVal := none
deriving DecidableEq, Repr

/-! ## Storage adapter (`load_json` / `save_json`, app.py lines 50-64) -/

/-- The state of one JSON file on disk: absent, unreadable/corrupt, or
holding a parsed value. -/
inductive FileState (α : Type) where
  | missing
  | corrupt
  | ok (d : α)
deriving DecidableEq, Repr

/-- The file system, as a map from paths to file states. -/
def Store (α : Type) : Type := String → FileState α

/-- The reader `load_json(path)` (app.py lines 50-59): return `[]` when the file is
missing (`os.path.exists` fails) or when reading/parsing raises
(`except Exception: return []`); otherwise the parsed list. -/
def load_json {α : Type} (st : Store (List α)) (path : String) : List α :=
  match st path with
  | .missing => []
  | .corrupt => []
  | .ok d => d

/-- The writer `save_json(path, data)` (app.py lines 61-64): rewrite the whole file with
the serialized list. -/
def save_json {α : Type} (st : Store (List α)) (path : String) (data : List α) :
    Store (List α) :=
  fun q => if q = path then .ok data else st q

/-! ## Authentication (`authenticate`, app.py lines 79-93) -/

/-- One object of `data/users.json`; every field read with `.get` may be
missing. -/
structure UserRec where
  ps_number : Option String := none
  password : Option String := none
  credential : Option String := none
  name : Option String := none
deriving DecidableEq, Repr

/-- One object of `data/coaches.json`. -/
structure CoachRec where
  ps_number : Option String := none
  name : Option String := none
deriving DecidableEq, Repr

/-- The user dictionary returned by a successful `authenticate`. -/
structure AuthUser where
  ps_number : String
  credential : String
  name : String
deriving DecidableEq, Repr

/-- The first loop of `authenticate` (app.py lines 83-85): scan `users.json`
for a record whose `ps_number` and `password` both match; build the result
with `credential` defaulting to `"Coach"` and `name` defaulting to the PS
number. -/
def findUserMatch (ps pw : String) : List UserRec → Option AuthUser
  | [] => none
  | u :: t =>
    if u.ps_number = some ps ∧ u.password = some pw then
      some ⟨ps, u.credential.getD "Coach", u.name.getD ps⟩
    else
      findUserMatch ps pw t

/-- The second loop of `authenticate` (app.py lines 88-91): scan
`coaches.json` for a record whose `ps_number` matches when the supplied
password equals the PS number itself; the result always has credential
`"Coach"`. -/
def findCoachMatch (ps pw : String) : List CoachRec → Option AuthUser
  | [] => none
  | c :: t =>
    if c.ps_number = some ps ∧ pw = ps then
      some ⟨ps, "Coach", c.name.getD ps⟩
    else
      findCoachMatch ps pw t

/-- The function `authenticate(ps_number, password)` (app.py lines 79-93): users.json
first, then the coaches.json fallback, else `None`. -/
def authenticate (users : List UserRec) (coaches : List CoachRec)
    (ps pw : String) : Option AuthUser :=
  match findUserMatch ps pw users with
  | some u => some u
  | none => findCoachMatch ps pw coaches

/-- The bootstrap seed of `data/users.json` (app.py lines 67-70): the single
default admin `PS1724 / PS1724`. -/
def defaultUsers : List UserRec :=
  [{ ps_number := some "PS1724"
     password := some "PS1724"
     credential := some "Admin"
     name := some "Administrator" }]

/-! ## Load-time repair (`ensure_request_id_and_defaults`, app.py lines 118-135) -/

/-- The body of the repair loop for one row (app.py lines 121-132): backfill a
generated id, status `"Pending"`, owner `"unknown"` when the respective key is
missing (setting the `changed` flag), then unconditionally coerce `ps_number`
to a string with `str(...)` (which does not set the flag). The `Nat` is the
UUID-generation counter. -/
def ensureStep (r : Req) (c : Nat) : Req × Nat × Bool :=
  let idRes : Option PVal × Nat × Bool :=
    match r.id with
    | none => (some (PVal.uuid c), c + 1, true)
    | some v => (some v, c, false)
  let stRes : Option PVal × Bool :=
    match r.status with
    | none => (some (PVal.str "Pending"), true)
    | some v => (some v, false)
  let psRes : PVal × Bool :=
    match r.ps_number with
    | none => (PVal.str "unknown", true)
    | some v => (v, false)
  ({ r with
      id := idRes.1
      status := stRes.1
      ps_number := some (PVal.str (pyStr psRes.1)) },
   idRes.2.1, idRes.2.2 || stRes.2 || psRes.2)

/-- The repair `ensure_request_id_and_defaults(rows)` (app.py lines 118-135), with the
UUID counter threaded through. Returns the repaired rows, the new counter,
and the `changed` flag; `save_json(FILES["requests"], rows)` is executed
if and only if the flag is `true`. -/
def ensureList : List Req → Nat → List Req × Nat × Bool
  | [], c => ([], c, false)
  | r :: t, c =>
    let h := ensureStep r c
    let rest := ensureList t h.2.1
    (h.1 :: rest.1, rest.2.1, h.2.2 || rest.2.2)

/-! ## Manage Requests page (app.py lines 247-393) -/

/-- The test `r.get("ps_number") == user["ps_number"]` (app.py lines 256, 326, 365,
384): the visibility / ownership test, identical for every credential. -/
def ownedBy (user : SessionUser) (r : Req) : Bool :=
  decide (r.ps_number = some user.ps_number)

/-- The test `r.get("status") == "Pending"` (app.py lines 328, 368, 385). -/
def isPending (r : Req) : Bool :=
  decide (r.status = some (PVal.str "Pending"))

/-- The Manage Requests visibility filter (app.py lines 255-256):
`visible = [r for r in rows if r.get("ps_number") == user["ps_number"]]`.
The comment in the source calls it "Role-agnostic filtering": the credential
of the user is not consulted. -/
def visibleRequests (user : SessionUser) (rows : List Req) : List Req :=
  rows.filter (fun r => ownedBy user r)

/-- Collect the ids marked for deletion from the edited dataframe (app.py
lines 309-318 and 342-351): rows whose `Delete` cell is truthy contribute
their `id` value when that value is itself truthy. -/
def toDeleteIds (edited : List ERow) : List PVal :=
  edited.filterMap (fun er =>
    if truthy er.del then
      match er.id with
      | some v => if truthyV v then some v else none
      | none => none
    else none)

/-- The test `r.get("id") in to_delete_ids` (app.py lines 327, 383): a row with a
missing id is never selected (`None` is not a collected id). -/
def idSelected (r : Req) (toDel : List PVal) : Bool :=
  match r.id with
  | some v => decide (v ∈ toDel)
  | none => false

/-- The "Delete Selected Items" handler (app.py lines 307-334), returning the
persisted list. When no id is selected the handler only warns and does not
save, so the store is unchanged; otherwise it keeps exactly the rows that are
not (selected and owned and Pending). -/
def deleteSelectedItems (user : SessionUser) (rows : List Req)
    (edited : List ERow) : List Req :=
  let toDel := toDeleteIds edited
  if toDel = [] then rows
  else rows.filter (fun r => ! (idSelected r toDel && ownedBy user r && isPending r))

/-- The key `r["id"]` used to build `by_id` (app.py line 339). In Python a
missing key raises `KeyError`; the handler runs only on rows already repaired
by `ensure_request_id_and_defaults`, so the key is always present and the
default value is never consulted there. -/
def keyOf (r : Req) : PVal := r.id.getD (PVal.str "")

/-- First-match lookup in an association list (a Python dict access). -/
def lookupA : List (PVal × Req) → PVal → Option Req
  | [], _ => none
  | kv :: t, q => if kv.1 = q then some kv.2 else lookupA t q

/-- Python dict assignment `d[k] = v`: overwrite in place when the key is
present, append otherwise (insertion order preserved). -/
def dictInsert (l : List (PVal × Req)) (k : PVal) (v : Req) : List (PVal × Req) :=
  if (lookupA l k).isSome then
    l.map (fun kv => if kv.1 = k then (k, v) else kv)
  else l ++ [(k, v)]

/-- The dict comprehension `by_id` over `rows` keyed by id (app.py line 339). -/
def buildById (rows : List Req) : List (PVal × Req) :=
  rows.foldl (fun d r => dictInsert d (keyOf r) r) []

/-- Overwrite-when-present: `if k in er: original[k] = er[k]`. -/
def ovw (e o : Option PVal) : Option PVal :=
  match e with
  | some v => some v
  | none => o

/-- Apply the allowed fields of an edited row back onto the original row
(app.py lines 372-375): the loop runs over `school_id`, `category`,
`material`, `quantity`, `status`, `date`; `id`, `ps_number` and the `Delete`
column are never written. -/
def applyEdit (orig : Req) (er : ERow) : Req :=
  { orig with
    school_id := ovw er.school_id orig.school_id
    category := ovw er.category orig.category
    material := ovw er.material orig.material
    quantity := ovw er.quantity orig.quantity
    status := ovw er.status orig.status
    date := ovw er.date orig.date }

/-- One iteration of the "Apply edits" loop of the Save Changes handler
(app.py lines 354-376): skip when the edited row has no truthy id, when the
id is unknown to `by_id`, when the id is marked for deletion, when the
original row is not owned by the user, or when it is not Pending; otherwise
store the edited row under the same key. -/
def editStep (user : SessionUser) (toDel : List PVal)
    (byId : List (PVal × Req)) (er : ERow) : List (PVal × Req) :=
  match er.id with
  | none => byId
  | some rid =>
    if truthyV rid = false then byId
    else
      match lookupA byId rid with
      | none => byId
      | some orig =>
        if rid ∈ toDel then byId
        else if ownedBy user orig = false then byId
        else if isPending orig = false then byId
        else dictInsert byId rid (applyEdit orig er)

/-- The ids actually deleted by the Save Changes handler (app.py lines
379-386): among the selected ids, those whose row in `rows` is owned by the
user and Pending. -/
def deletableIds (user : SessionUser) (rows : List Req) (toDel : List PVal) :
    List PVal :=
  rows.filterMap (fun r =>
    match r.id with
    | some v =>
      if v ∈ toDel ∧ ownedBy user r = true ∧ isPending r = true then some v
      else none
    | none => none)

/-- The "Save Changes" handler (app.py lines 337-393), returning the
persisted list `list(by_id.values())`: build `by_id`, collect the ids marked
for deletion, fold the edit loop, pop the deletable ids, and keep the values. -/
def saveChanges (user : SessionUser) (rows : List Req) (edited : List ERow) :
    List Req :=
  let byId := buildById rows
  let toDel := toDeleteIds edited
  let afterEdits := edited.foldl (editStep user toDel) byId
  let afterDel := afterEdits.filter
    (fun kv => decide (kv.1 ∉ deletableIds user rows toDel))
  afterDel.map (fun kv => kv.2)

/-! ## Submit Request page (app.py lines 171-242) -/

/-- The caller-supplied fields of one item of a batch: school, category,
material, quantity and timestamp. -/
structure ItemSpec where
  school_id : PVal
  category : PVal
  material : PVal
  quantity : Int
  date : PVal
deriving DecidableEq, Repr

/-- The "Add Another Item" handler (app.py lines 206-216): the staged item
carries a fresh UUID, the caller-chosen fields, the submitting user's
`ps_number` as a string, and status `"Pending"`. -/
def addAnotherItem (user : SessionUser) (sp : ItemSpec) (c : Nat) : Req :=
  { id := some (PVal.uuid c)
    school_id := some sp.school_id
    category := some sp.category
    material := some sp.material
    quantity := some (PVal.int sp.quantity)
    date := some sp.date
    ps_number := some (PVal.str (pyStr user.ps_number))
    status := some (PVal.str "Pending") }

/-- Successive "Add Another Item" clicks building the session batch
`st.session_state["pending_request"]`, with the UUID counter threaded. -/
def buildBatch (user : SessionUser) : List ItemSpec → Nat → List Req × Nat
  | [], c => ([], c)
  | sp :: t, c =>
    let rest := buildBatch user t (c + 1)
    (addAnotherItem user sp c :: rest.1, rest.2)

/-- The per-item normalization of the "Submit Request" handler (app.py lines
231-236): generate an id when missing or falsy, overwrite `ps_number` with
`str(user["ps_number"])`, and set `status` to its current value when truthy,
else `"Pending"` (`item.get("status", "Pending") or "Pending"`). -/
def normalizeItem (user : SessionUser) (item : Req) (c : Nat) : Req × Nat :=
  let idRes : Option PVal × Nat :=
    if truthy item.id then (item.id, c) else (some (PVal.uuid c), c + 1)
  let newStatus : PVal :=
    match item.status with
    | none => PVal.str "Pending"
    | some v => if truthyV v then v else PVal.str "Pending"
  ({ item with
      id := idRes.1
      ps_number := some (PVal.str (pyStr user.ps_number))
      status := some newStatus }, idRes.2)

/-- The "Submit Request" handler loop (app.py lines 228-238): normalize each
staged item and append it to the loaded store, then persist the whole list. -/
def submitRequestBatch (user : SessionUser) :
    List Req → List Req → Nat → List Req × Nat
  | [], store, c => (store, c)
  | item :: t, store, c =>
    let n := normalizeItem user item c
    submitRequestBatch user t (store ++ [n.1]) n.2

/-! ## Concrete instances used in counterexamples and witnesses -/

/-- The seeded admin, logged in. -/
def adminUser : SessionUser :=
  { ps_number := PVal.str "PS1724", credential := "Admin", name := "Administrator" }

/-- A coach session. -/
def coachUser : SessionUser :=
  { ps_number := PVal.str "PS2", credential := "Coach", name := "Coach Two" }

/-- A Pending request owned by coach PS2. -/
def reqOfCoach : Req :=
  { id := some (PVal.str "A")
    ps_number := some (PVal.str "PS2")
    status := some (PVal.str "Pending") }

/-- An Approved request owned by the admin PS1724. -/
def reqAdminApproved : Req :=
  { id := some (PVal.str "B")
    ps_number := some (PVal.str "PS1724")
    status := some (PVal.str "Approved")
    quantity := some (PVal.int 1) }

/-- An edited-grid row marking id "B" for deletion. -/
def erowDeleteB : ERow :=
  { del := some (PVal.bool true), id := some (PVal.str "B") }

/-- An edited-grid row marking the absent id "ZZZ" for deletion. -/
def erowDeleteZZZ : ERow :=
  { del := some (PVal.bool true), id := some (PVal.str "ZZZ") }

/-- An edited-grid row attempting to change the quantity of id "B". -/
def erowEditB : ERow :=
  { id := some (PVal.str "B"), quantity := some (PVal.int 99) }

/-- A concrete staged-item choice. -/
def specA : ItemSpec :=
  { school_id := PVal.str "S1"
    category := PVal.str "Books"
    material := PVal.str "Pencil"
    quantity := 2
    date := PVal.str "2025-11-07 10:00:00" }

/-- A legacy row with every key missing. -/
def reqBare : Req := {}

/-- A legacy row with id and status present but a numeric owner. -/
def reqLegacy : Req :=
  { id := some (PVal.str "X")
    status := some (PVal.str "Approved")
    ps_number := some (PVal.int 7) }

end SJJP

namespace SJJP

/-! ## Theorems -/

/-- Helper: the first users.json loop agrees with a first-match search. -/
theorem findUserMatch_eq_find (ps pw : String) (users : List UserRec) :
    findUserMatch ps pw users =
      (users.find? (fun u =>
          decide (u.ps_number = some ps ∧ u.password = some pw))).map
        (fun u => ⟨ps, u.credential.getD "Coach", u.name.getD ps⟩) := by
  induction users with
  | nil => rfl
  | cons u t ih =>
    by_cases h : u.ps_number = some ps ∧ u.password = some pw <;>
      simp [findUserMatch, List.find?_cons, h, ih]

/-- Helper: the coaches.json fallback loop agrees with a first-match search. -/
theorem findCoachMatch_eq_find (ps pw : String) (coaches : List CoachRec) :
    findCoachMatch ps pw coaches =
      (coaches.find? (fun c =>
          decide (c.ps_number = some ps ∧ pw = ps))).map
        (fun c => ⟨ps, "Coach", c.name.getD ps⟩) := by
  induction coaches with
  | nil => rfl
  | cons c t ih =>
    by_cases h : c.ps_number = some ps ∧ pw = ps <;>
      simp [findCoachMatch, List.find?_cons, h, ih]

/-- C5: `authenticate` returns the first users.json record whose `ps_number`
and `password` both match, carrying its stored `credential` (default
`"Coach"`); otherwise the first coaches.json record whose `ps_number` matches
when the password equals the PS number itself, synthesized with role
`"Coach"`; otherwise `none`. With the bootstrap store,
`authenticate("PS1724","PS1724")` yields the Admin record and
`authenticate("PS9999","wrong")` is denied. -/
theorem authenticate_spec :
    (∀ (users : List UserRec) (coaches : List CoachRec) (ps pw : String),
      authenticate users coaches ps pw =
        match users.find? (fun u =>
            decide (u.ps_number = some ps ∧ u.password = some pw)) with
        | some u => some ⟨ps, u.credential.getD "Coach", u.name.getD ps⟩
        | none =>
          match coaches.find? (fun c =>
              decide (c.ps_number = some ps ∧ pw = ps)) with
          | some c => some ⟨ps, "Coach", c.name.getD ps⟩
          | none => none)
    ∧ authenticate defaultUsers [] "PS1724" "PS1724" =
        some ⟨"PS1724", "Admin", "Administrator"⟩
    ∧ authenticate defaultUsers [] "PS9999" "wrong" = none := by
  refine ⟨?_, by decide, by decide⟩
  intro users coaches ps pw
  unfold authenticate
  rw [findUserMatch_eq_find, findCoachMatch_eq_find]
  cases users.find? (fun u => decide (u.ps_number = some ps ∧ u.password = some pw)) <;>
    cases coaches.find? (fun c => decide (c.ps_number = some ps ∧ pw = ps)) <;> simp

/-- C6: loading from a missing or unreadable/corrupt file yields the empty
list, so a bad collection never raises. -/
theorem load_json_bad_file_empty (α : Type) (st : Store (List α)) (p : String)
    (h : st p = FileState.missing ∨ st p = FileState.corrupt) :
    load_json st p = [] := by
  rcases h with h | h <;> simp [load_json, h]

/-- Witness for C6: a store in which every file is missing. -/
theorem load_json_bad_file_empty_witness :
    load_json (fun _ => (FileState.missing : FileState (List Req)))
      "data/requests.json" = [] :=
  load_json_bad_file_empty Req (fun _ => FileState.missing) "data/requests.json"
    (Or.inl rfl)

/-- C9: writing a collection with `save_json` and reading it back with
`load_json` yields the same records, field for field. -/
theorem save_then_load_roundtrip (α : Type) (st : Store (List α)) (p : String)
    (d : List α) :
    load_json (save_json st p d) p = d := by
  simp [load_json, save_json]

/-- C1 (amended): the Manage Requests visibility filter returns, for every
actor regardless of credential (Admin included), exactly the stored requests
whose `ps_number` equals the actor's, in stored order. -/
theorem visibleRequests_exactly_owned (user : SessionUser) (rows : List Req) :
    (∀ r, r ∈ visibleRequests user rows ↔
        r ∈ rows ∧ r.ps_number = some user.ps_number)
    ∧ (visibleRequests user rows).Sublist rows := by
  constructor
  · intro r
    simp [visibleRequests, ownedBy, List.mem_filter]
  · exact List.filter_sublist _

/-- C1 counterexample: an Admin session does not receive the full collection:
with a single stored request owned by coach PS2, the admin's visible list is
empty. -/
theorem visibleRequests_admin_not_all :
    adminUser.credential = "Admin"
    ∧ visibleRequests adminUser [reqOfCoach] = []
    ∧ [reqOfCoach] ≠ ([] : List Req) := by
  refine ⟨rfl, by decide, by decide⟩

/-! ### Association-list helpers for the Save Changes handler -/

/-- Helper: lookup distributes over append. -/
theorem lookupA_append (l1 l2 : List (PVal × Req)) (q : PVal) :
    lookupA (l1 ++ l2) q =
      match lookupA l1 q with
      | some v => some v
      | none => lookupA l2 q := by
  induction l1 with
  | nil => rfl
  | cons kv t ih => by_cases h : kv.1 = q <;> simp [lookupA, h, ih]

/-- Helper: a key outside the key list looks up to `none`. -/
theorem lookupA_eq_none_of_not_mem (l : List (PVal × Req)) (k : PVal)
    (h : k ∉ l.map Prod.fst) : lookupA l k = none := by
  induction l with
  | nil => rfl
  | cons kv t ih =>
    simp only [List.map_cons, List.mem_cons, not_or] at h
    have hne : kv.1 ≠ k := fun he => h.1 he.symm
    simp only [lookupA, if_neg hne]
    exact ih h.2

/-- Helper: overwriting an existing key leaves the other keys' lookups
unchanged. -/
theorem lookupA_overwrite_ne (l : List (PVal × Req)) (k : PVal) (v : Req)
    (q : PVal) (h : k ≠ q) :
    lookupA (l.map (fun kv => if kv.1 = k then (k, v) else kv)) q =
      lookupA l q := by
  induction l with
  | nil => rfl
  | cons kv t ih =>
    by_cases hk : kv.1 = k
    · simp only [List.map_cons, if_pos hk, lookupA, if_neg h, if_neg (hk ▸ h)]
      exact ih
    · simp only [List.map_cons, if_neg hk, lookupA]
      by_cases hq : kv.1 = q
      · simp [hq]
      · simp only [if_neg hq]
        exact ih

/-- Helper: overwriting an existing key makes it look up to the new value. -/
theorem lookupA_overwrite_self (l : List (PVal × Req)) (k : PVal) (v : Req)
    (h : (lookupA l k).isSome) :
    lookupA (l.map (fun kv => if kv.1 = k then (k, v) else kv)) k = some v := by
  induction l with
  | nil => simp [lookupA] at h
  | cons kv t ih =>
    by_cases hk : kv.1 = k
    · simp [List.map_cons, if_pos hk, lookupA]
    · simp only [lookupA, if_neg hk] at h
      simp only [List.map_cons, if_neg hk, lookupA, if_neg hk]
      exact ih h

/-- Helper: dict assignment at key `k` does not change the value at `q ≠ k`. -/
theorem lookupA_dictInsert_ne (l : List (PVal × Req)) (k : PVal) (v : Req)
    (q : PVal) (h : k ≠ q) :
    lookupA (dictInsert l k v) q = lookupA l q := by
  unfold dictInsert
  by_cases hs : (lookupA l k).isSome
  · rw [if_pos hs]
    exact lookupA_overwrite_ne l k v q h
  · rw [if_neg hs, lookupA_append]
    cases hq : lookupA l q with
    | some w => rfl
    | none => simp [lookupA, h]

/-- Helper: dict assignment at key `k` makes `k` look up to the new value. -/
theorem lookupA_dictInsert_self (l : List (PVal × Req)) (k : PVal) (v : Req) :
    lookupA (dictInsert l k v) k = some v := by
  unfold dictInsert
  by_cases hs : (lookupA l k).isSome
  · rw [if_pos hs]
    exact lookupA_overwrite_self l k v hs
  · rw [if_neg hs, lookupA_append]
    rw [Option.not_isSome_iff_eq_none] at hs
    simp [hs, lookupA]

/-- Helper: a successful lookup is a membership. -/
theorem mem_of_lookupA (l : List (PVal × Req)) (q : PVal) (v : Req)
    (h : lookupA l q = some v) : (q, v) ∈ l := by
  induction l with
  | nil => cases h
  | cons kv t ih =>
    obtain ⟨k1, v1⟩ := kv
    by_cases hk : k1 = q
    · simp only [lookupA, if_pos hk] at h
      cases h
      subst hk
      exact List.mem_cons_self _ _
    · simp only [lookupA, if_neg hk] at h
      exact List.mem_cons_of_mem _ (ih h)

/-- Helper: every entry of a dict after assignment is an old entry or the
assigned pair. -/
theorem mem_dictInsert (l : List (PVal × Req)) (k : PVal) (v : Req)
    (kv : PVal × Req) (h : kv ∈ dictInsert l k v) : kv ∈ l ∨ kv = (k, v) := by
  unfold dictInsert at h
  by_cases hs : (lookupA l k).isSome
  · rw [if_pos hs] at h
    rcases List.mem_map.mp h with ⟨kv0, hkv0, heq⟩
    by_cases hk : kv0.1 = k
    · right
      rw [if_pos hk] at heq
      exact heq.symm
    · left
      rw [if_neg hk] at heq
      exact heq ▸ hkv0
  · rw [if_neg hs] at h
    rcases List.mem_append.mp h with h | h
    · exact Or.inl h
    · exact Or.inr (List.mem_singleton.mp h)

/-- Helper: the edit loop body either leaves the dict unchanged or, when an
edited row names a truthy id whose stored original is owned by the session
user and Pending and is not marked for deletion, overwrites that entry. -/
theorem editStep_eq_or (user : SessionUser) (toDel : List PVal)
    (byId : List (PVal × Req)) (er : ERow) :
    editStep user toDel byId er = byId ∨
    ∃ rid orig, lookupA byId rid = some orig ∧ ownedBy user orig = true ∧
      isPending orig = true ∧
      editStep user toDel byId er = dictInsert byId rid (applyEdit orig er) := by
  cases her : er.id with
  | none =>
    left
    unfold editStep
    rw [her]
  | some rid =>
    unfold editStep
    rw [her]
    dsimp only
    by_cases ht : truthyV rid = false
    · left
      rw [if_pos ht]
    · rw [if_neg ht]
      cases hlk : lookupA byId rid with
      | none =>
        left
        rfl
      | some orig =>
        dsimp only
        by_cases hd : rid ∈ toDel
        · left
          rw [if_pos hd]
        · rw [if_neg hd]
          by_cases ho : ownedBy user orig = false
          · left
            rw [if_pos ho]
          · rw [if_neg ho]
            by_cases hp : isPending orig = false
            · left
              rw [if_pos hp]
            · rw [if_neg hp]
              right
              exact ⟨rid, orig, hlk, eq_true_of_ne_false ho,
                eq_true_of_ne_false hp, rfl⟩

/-- Helper: one step of the edit loop never changes the entry of a row that
is not both owned by the session user and Pending. -/
theorem lookupA_editStep (user : SessionUser) (toDel : List PVal)
    (byId : List (PVal × Req)) (er : ERow) (q : PVal) (r : Req)
    (hq : lookupA byId q = some r)
    (hg : ¬(ownedBy user r = true ∧ isPending r = true)) :
    lookupA (editStep user toDel byId er) q = some r := by
  rcases editStep_eq_or user toDel byId er with h | ⟨rid, orig, hlk, ho, hp, h⟩
  · rw [h]
    exact hq
  · rw [h]
    have hne : rid ≠ q := by
      intro he
      subst he
      rw [hq] at hlk
      cases hlk
      exact hg ⟨ho, hp⟩
    rw [lookupA_dictInsert_ne _ _ _ _ hne]
    exact hq

/-- Helper: the whole edit loop never changes the entry of a row that is not
both owned by the session user and Pending. -/
theorem lookupA_foldl_editStep (user : SessionUser) (toDel : List PVal)
    (edited : List ERow) (byId : List (PVal × Req)) (q : PVal) (r : Req)
    (hq : lookupA byId q = some r)
    (hg : ¬(ownedBy user r = true ∧ isPending r = true)) :
    lookupA (edited.foldl (editStep user toDel) byId) q = some r := by
  induction edited generalizing byId with
  | nil => exact hq
  | cons er t ih =>
    exact ih (editStep user toDel byId er) (lookupA_editStep user toDel byId er q r hq hg)

/-- Helper: when the row keys are pairwise distinct, the Python dict
comprehension `{r["id"]: r for r in rows}` is the association list of the
rows in order. -/
theorem foldl_dictInsert_eq (rows : List Req) (acc : List (PVal × Req))
    (h : (acc.map Prod.fst ++ rows.map keyOf).Nodup) :
    rows.foldl (fun d r => dictInsert d (keyOf r) r) acc
      = acc ++ rows.map (fun r => (keyOf r, r)) := by
  induction rows generalizing acc with
  | nil => simp
  | cons r t ih =>
    have hnotin : keyOf r ∉ acc.map Prod.fst := by
      rcases List.nodup_append.mp h with ⟨-, -, hdisj⟩
      intro hin
      exact hdisj hin (by simp)
    have hnone : lookupA acc (keyOf r) = none :=
      lookupA_eq_none_of_not_mem acc (keyOf r) hnotin
    have hstep : dictInsert acc (keyOf r) r = acc ++ [(keyOf r, r)] := by
      unfold dictInsert
      rw [hnone]
      rfl
    have hh : ((acc ++ [(keyOf r, r)]).map Prod.fst ++ t.map keyOf).Nodup := by
      rw [List.map_append, List.append_assoc]
      simpa using h
    simp only [List.foldl_cons, hstep]
    rw [ih (acc ++ [(keyOf r, r)]) hh]
    simp

/-- Helper: `buildById` under distinct keys. -/
theorem buildById_eq (rows : List Req) (hnd : (rows.map keyOf).Nodup) :
    buildById rows = rows.map (fun r => (keyOf r, r)) := by
  have := foldl_dictInsert_eq rows [] (by simpa using hnd)
  simpa [buildById] using this

/-- Helper: looking up a stored row by its own key finds it, given distinct
keys. -/
theorem lookupA_pairs (rows : List Req) (r : Req)
    (hnd : (rows.map keyOf).Nodup) (hr : r ∈ rows) :
    lookupA (rows.map (fun x => (keyOf x, x))) (keyOf r) = some r := by
  induction rows with
  | nil => cases hr
  | cons r0 t ih =>
    rcases List.mem_cons.mp hr with h0 | h0
    · subst h0
      simp [lookupA]
    · by_cases hk : keyOf r0 = keyOf r
      · exfalso
        have : keyOf r ∈ t.map keyOf := List.mem_map_of_mem keyOf h0
        rw [← hk] at this
        exact (List.nodup_cons.mp (by simpa using hnd)).1 this
      · simp only [List.map_cons, lookupA, if_neg hk]
        exact ih (List.nodup_cons.mp (by simpa using hnd)).2 h0

/-- C8: when none of the ids selected for deletion occurs in the stored
collection, the Delete Selected Items handler persists exactly the same
records (in particular the size is unchanged). -/
theorem deleteSelectedItems_noop_on_absent_ids (user : SessionUser)
    (rows : List Req) (edited : List ERow)
    (h : ∀ v ∈ toDeleteIds edited, ∀ r ∈ rows, r.id ≠ some v) :
    deleteSelectedItems user rows edited = rows := by
  unfold deleteSelectedItems
  by_cases he : toDeleteIds edited = []
  · simp [he]
  · simp only [he, if_false, if_neg he]
    rw [List.filter_eq_self]
    intro r hr
    have hid : idSelected r (toDeleteIds edited) = false := by
      unfold idSelected
      cases hcase : r.id with
      | none => rfl
      | some v =>
        simp only [decide_eq_false_iff_not]
        intro hv
        exact h v hv r hr hcase
    simp [hid]

/-- Witness for C8: deleting the absent id "ZZZ" from a one-row store keeps
the row. -/
theorem deleteSelectedItems_noop_on_absent_ids_witness :
    deleteSelectedItems coachUser [reqOfCoach] [erowDeleteZZZ] = [reqOfCoach] :=
  deleteSelectedItems_noop_on_absent_ids coachUser [reqOfCoach] [erowDeleteZZZ]
    (by decide)

/-- Helper: `applyEdit` never touches the `id` field. -/
theorem applyEdit_id (orig : Req) (er : ERow) : (applyEdit orig er).id = orig.id := rfl

/-- Helper: a stored row that is not both owned by the session user and
Pending survives the Save Changes handler unchanged. -/
theorem saveChanges_keeps_unmutable (user : SessionUser) (rows : List Req)
    (edited : List ERow) (r : Req)
    (hnd : (rows.map keyOf).Nodup) (hr : r ∈ rows)
    (hg : ¬(r.ps_number = some user.ps_number ∧
            r.status = some (PVal.str "Pending"))) :
    r ∈ saveChanges user rows edited := by
  have hgB : ¬(ownedBy user r = true ∧ isPending r = true) := by
    simpa [ownedBy, isPending] using hg
  have h0 : lookupA (buildById rows) (keyOf r) = some r := by
    rw [buildById_eq rows hnd]
    exact lookupA_pairs rows r hnd hr
  have h1 : lookupA
      (edited.foldl (editStep user (toDeleteIds edited)) (buildById rows))
      (keyOf r) = some r :=
    lookupA_foldl_editStep user (toDeleteIds edited) edited (buildById rows)
      (keyOf r) r h0 hgB
  have h2 : (keyOf r, r) ∈
      edited.foldl (editStep user (toDeleteIds edited)) (buildById rows) :=
    mem_of_lookupA _ _ _ h1
  have h3 : keyOf r ∉ deletableIds user rows (toDeleteIds edited) := by
    intro hmem
    rcases List.mem_filterMap.mp hmem with ⟨r2, hr2, hopt⟩
    split at hopt
    · split at hopt
      · rename_i v hid2 hcond
        cases hopt
        have hk2 : keyOf r2 = keyOf r := by
          simp [keyOf, hid2]
        have : r2 = r := List.inj_on_of_nodup_map hnd hr2 hr hk2
        subst this
        exact hgB ⟨hcond.2.1, hcond.2.2⟩
      · cases hopt
    · cases hopt
  unfold saveChanges
  apply List.mem_map.mpr
  refine ⟨(keyOf r, r), ?_, rfl⟩
  apply List.mem_filter.mpr
  exact ⟨h2, by simpa using h3⟩

/-- Helper: one edit step preserves the invariant that every dict value's id
is the id of some stored row. -/
theorem editStep_preserves_ids (user : SessionUser) (toDel : List PVal)
    (byId : List (PVal × Req)) (er : ERow) (rows : List Req)
    (hinv : ∀ kv ∈ byId, ∃ r ∈ rows, (kv : PVal × Req).2.id = r.id) :
    ∀ kv ∈ editStep user toDel byId er, ∃ r ∈ rows, kv.2.id = r.id := by
  intro kv hkv
  rcases editStep_eq_or user toDel byId er with h | ⟨rid, orig, hlk, -, -, h⟩
  · rw [h] at hkv
    exact hinv kv hkv
  · rw [h] at hkv
    rcases mem_dictInsert byId rid (applyEdit orig er) kv hkv with h2 | h2
    · exact hinv kv h2
    · rcases hinv (rid, orig) (mem_of_lookupA byId rid orig hlk) with ⟨r, hr, hid⟩
      refine ⟨r, hr, ?_⟩
      rw [h2]
      simpa [applyEdit_id] using hid

/-- Helper: the whole edit loop preserves the id-provenance invariant. -/
theorem foldl_editStep_preserves_ids (user : SessionUser) (toDel : List PVal)
    (edited : List ERow) (byId : List (PVal × Req)) (rows : List Req)
    (hinv : ∀ kv ∈ byId, ∃ r ∈ rows, (kv : PVal × Req).2.id = r.id) :
    ∀ kv ∈ edited.foldl (editStep user toDel) byId,
      ∃ r ∈ rows, (kv : PVal × Req).2.id = r.id := by
  induction edited generalizing byId with
  | nil => exact hinv
  | cons er t ih =>
    exact ih (editStep user toDel byId er)
      (editStep_preserves_ids user toDel byId er rows hinv)

/-- C2 (amended): the code grants Admin no exemption: for every session user,
whatever the credential (Admin included), an attempted edit or delete of a
stored request that is not both owned by that user and in status Pending is
denied — the record survives, unchanged, in the persisted result of both the
Delete Selected Items handler and the Save Changes handler. -/
theorem mutations_denied_without_owned_pending (user : SessionUser)
    (rows : List Req) (edited : List ERow) (r : Req)
    (_hids : ∀ x ∈ rows, x.id.isSome)
    (hnd : (rows.map keyOf).Nodup)
    (hr : r ∈ rows)
    (hg : ¬(r.ps_number = some user.ps_number ∧
            r.status = some (PVal.str "Pending"))) :
    r ∈ deleteSelectedItems user rows edited
    ∧ r ∈ saveChanges user rows edited := by
  have hgB : ownedBy user r = false ∨ isPending r = false := by
    by_cases ho : ownedBy user r = true
    · by_cases hp : isPending r = true
      · exfalso
        apply hg
        constructor
        · simpa [ownedBy] using ho
        · simpa [isPending] using hp
      · exact Or.inr (Bool.eq_false_iff.mpr hp)
    · exact Or.inl (Bool.eq_false_iff.mpr ho)
  constructor
  · unfold deleteSelectedItems
    by_cases he : toDeleteIds edited = []
    · simpa [he] using hr
    · simp only [if_neg he]
      apply List.mem_filter.mpr
      refine ⟨hr, ?_⟩
      rcases hgB with h | h <;> simp [h]
  · exact saveChanges_keeps_unmutable user rows edited r hnd hr hg

/-- Witness for C2 (amended): coach PS2's attempt to delete and edit the
admin-owned Approved request "B" leaves it stored. -/
theorem mutations_denied_without_owned_pending_witness :
    reqAdminApproved ∈
      deleteSelectedItems coachUser [reqAdminApproved] [erowDeleteB]
    ∧ reqAdminApproved ∈
      saveChanges coachUser [reqAdminApproved] [erowDeleteB] :=
  mutations_denied_without_owned_pending coachUser [reqAdminApproved]
    [erowDeleteB] reqAdminApproved (by decide) (by decide) (by decide) (by decide)

/-- C2 counterexample: the claim's Admin clause fails on the code: the Admin
session deleting its own Approved request "B", and editing its quantity, both
leave the stored collection unchanged — the mutation does not succeed. -/
theorem admin_mutation_not_exempt :
    adminUser.credential = "Admin"
    ∧ deleteSelectedItems adminUser [reqAdminApproved] [erowDeleteB]
        = [reqAdminApproved]
    ∧ saveChanges adminUser [reqAdminApproved] [erowEditB]
        = [reqAdminApproved] := by
  refine ⟨rfl, by decide, by decide⟩

/-- C7: for a store with present, pairwise-distinct ids, the Save Changes
handler (a) keeps every stored request that is not both owned by the session
user and Pending unchanged in the persisted result, and (b) persists no row
whose id is not already the id of a stored row (rows newly added in the
editor are dropped). -/
theorem saveChanges_frame (user : SessionUser) (rows : List Req)
    (edited : List ERow)
    (_hids : ∀ x ∈ rows, x.id.isSome)
    (hnd : (rows.map keyOf).Nodup) :
    (∀ r ∈ rows,
        ¬(r.ps_number = some user.ps_number ∧
          r.status = some (PVal.str "Pending")) →
        r ∈ saveChanges user rows edited)
    ∧ (∀ p ∈ saveChanges user rows edited, ∃ r ∈ rows, p.id = r.id) := by
  constructor
  · intro r hr hg
    exact saveChanges_keeps_unmutable user rows edited r hnd hr hg
  · intro p hp
    unfold saveChanges at hp
    rcases List.mem_map.mp hp with ⟨kv, hkv, hpe⟩
    have hkv2 : kv ∈ edited.foldl (editStep user (toDeleteIds edited))
        (buildById rows) := (List.mem_filter.mp hkv).1
    have hbase : ∀ kv ∈ buildById rows,
        ∃ r ∈ rows, (kv : PVal × Req).2.id = r.id := by
      intro kv0 hkv0
      rw [buildById_eq rows hnd] at hkv0
      rcases List.mem_map.mp hkv0 with ⟨r0, hr0, he0⟩
      exact ⟨r0, hr0, by rw [← he0]⟩
    rcases foldl_editStep_preserves_ids user (toDeleteIds edited) edited
        (buildById rows) rows hbase kv hkv2 with ⟨r, hr, hid⟩
    exact ⟨r, hr, hpe ▸ hid⟩

/-- Witness for C7: applied to the admin session, a one-row store owned by
coach PS2, and an edited grid containing only a freshly added row. -/
theorem saveChanges_frame_witness :
    (∀ r ∈ [reqOfCoach],
        ¬(r.ps_number = some adminUser.ps_number ∧
          r.status = some (PVal.str "Pending")) →
        r ∈ saveChanges adminUser [reqOfCoach] [erowEditB])
    ∧ (∀ p ∈ saveChanges adminUser [reqOfCoach] [erowEditB],
        ∃ r ∈ [reqOfCoach], p.id = r.id) :=
  saveChanges_frame adminUser [reqOfCoach] [erowEditB] (by decide) (by decide)

/-! ### Helpers for the load-time repair -/

/-- Helper: unfolding one step of `ensureList`. -/
theorem ensureList_cons (r : Req) (t : List Req) (c : Nat) :
    ensureList (r :: t) c =
      ((ensureStep r c).1 :: (ensureList t (ensureStep r c).2.1).1,
       (ensureList t (ensureStep r c).2.1).2.1,
       (ensureStep r c).2.2 || (ensureList t (ensureStep r c).2.1).2.2) := rfl

/-- Helper: the repair step never decreases the UUID counter. -/
theorem ensureStep_counter_le (r : Req) (c : Nat) :
    c ≤ (ensureStep r c).2.1 := by
  cases h : r.id <;> simp [ensureStep, h]

/-- Helper: every id in the repaired list is either a UUID generated at or
after the initial counter, or the already-present id of an input row. -/
theorem ensureList_mem_ids (rows : List Req) (c : Nat) (r' : Req)
    (h : r' ∈ (ensureList rows c).1) :
    (∃ k, c ≤ k ∧ r'.id = some (PVal.uuid k))
    ∨ (∃ r ∈ rows, ∃ v, r.id = some v ∧ r'.id = some v) := by
  induction rows generalizing c with
  | nil => cases h
  | cons r t ih =>
    rw [ensureList_cons] at h
    rcases List.mem_cons.mp h with h0 | h0
    · cases hid : r.id with
      | none =>
        left
        refine ⟨c, Nat.le_refl c, ?_⟩
        rw [h0]
        simp [ensureStep, hid]
      | some v =>
        right
        refine ⟨r, List.mem_cons_self r t, v, hid, ?_⟩
        rw [h0]
        simp [ensureStep, hid]
    · rcases ih (ensureStep r c).2.1 h0 with ⟨k, hk, hid⟩ | ⟨r2, hr2, v, hv, hid⟩
      · exact Or.inl ⟨k, Nat.le_trans (ensureStep_counter_le r c) hk, hid⟩
      · exact Or.inr ⟨r2, List.mem_cons_of_mem r hr2, v, hv, hid⟩

/-- Helper: the repaired list's ids are pairwise distinct, provided the input
ids that are present are pairwise distinct and no input id collides with a
UUID the counter can still generate. -/
theorem ensureList_ids_nodup (rows : List Req) (c : Nat)
    (hfresh : ∀ r ∈ rows, ∀ k, c ≤ k → r.id ≠ some (PVal.uuid k))
    (hnodup : (rows.filterMap Req.id).Nodup) :
    ((ensureList rows c).1.map Req.id).Nodup := by
  induction rows generalizing c with
  | nil => simp [ensureList]
  | cons r t ih =>
    rw [ensureList_cons]
    simp only [List.map_cons, List.nodup_cons]
    have hfresh2 : ∀ r2 ∈ t, ∀ k, (ensureStep r c).2.1 ≤ k →
        r2.id ≠ some (PVal.uuid k) := by
      intro r2 hr2 k hk
      exact hfresh r2 (List.mem_cons_of_mem r hr2) k
        (Nat.le_trans (ensureStep_counter_le r c) hk)
    have hnodup2 : (t.filterMap Req.id).Nodup := by
      cases hid : r.id with
      | none => simpa [List.filterMap_cons, hid] using hnodup
      | some v => exact (List.nodup_cons.mp (by simpa [List.filterMap_cons, hid] using hnodup)).2
    refine ⟨?_, ih (ensureStep r c).2.1 hfresh2 hnodup2⟩
    intro hmem
    rcases List.mem_map.mp hmem with ⟨r'', hr'', hideq⟩
    cases hid : r.id with
    | none =>
      have hhead : (ensureStep r c).1.id = some (PVal.uuid c) := by
        simp [ensureStep, hid]
      have hc1 : (ensureStep r c).2.1 = c + 1 := by
        simp [ensureStep, hid]
      rcases ensureList_mem_ids t (ensureStep r c).2.1 r'' hr'' with
        ⟨k, hk, hid2⟩ | ⟨r2, hr2, v, hv, hid2⟩
      · rw [hc1] at hk
        rw [hid2, hhead] at hideq
        have : k = c := by
          cases hideq
          rfl
        omega
      · rw [hid2, hhead] at hideq
        cases hideq
        exact hfresh r2 (List.mem_cons_of_mem r hr2) c (Nat.le_refl c) hv
    | some v =>
      have hhead : (ensureStep r c).1.id = some v := by
        simp [ensureStep, hid]
      rcases ensureList_mem_ids t (ensureStep r c).2.1 r'' hr'' with
        ⟨k, hk, hid2⟩ | ⟨r2, hr2, w, hw, hid2⟩
      · rw [hid2, hhead] at hideq
        have hk2 : c ≤ k :=
          Nat.le_trans (ensureStep_counter_le r c) hk
        exact hfresh r (List.mem_cons_self r t) k hk2 (by rw [hid, hideq])
      · rw [hid2, hhead] at hideq
        cases hideq
        have hvin : v ∈ t.filterMap Req.id :=
          List.mem_filterMap.mpr ⟨r2, hr2, hw⟩
        have : (List.filterMap Req.id (r :: t)).Nodup := hnodup
        rw [List.filterMap_cons, hid] at this
        exact (List.nodup_cons.mp this).1 hvin

/-- Helper: a row whose three required fields are already present, with a
string owner, is a fixed point of the repair step and leaves the flag off. -/
theorem ensureStep_fixed (r : Req) (c2 : Nat)
    (h1 : r.id.isSome) (h2 : r.status.isSome)
    (h3 : ∃ s, r.ps_number = some (PVal.str s)) :
    ensureStep r c2 = (r, c2, false) := by
  obtain ⟨id0, sc, cat, mat, q, d, ps, st0⟩ := r
  obtain ⟨v1, hv1⟩ := Option.isSome_iff_exists.mp h1
  obtain ⟨v2, hv2⟩ := Option.isSome_iff_exists.mp h2
  obtain ⟨s, hs⟩ := h3
  simp only at hv1 hv2 hs
  subst hv1
  subst hv2
  subst hs
  simp [ensureStep, pyStr]

/-- Helper: every row of the repaired list has its three required fields
present, with a string owner. -/
theorem ensureList_all_repaired (rows : List Req) (c : Nat) :
    ∀ r' ∈ (ensureList rows c).1,
      r'.id.isSome ∧ r'.status.isSome ∧ ∃ s, r'.ps_number = some (PVal.str s) := by
  induction rows generalizing c with
  | nil => intro r' h; cases h
  | cons r t ih =>
    intro r' h
    rw [ensureList_cons] at h
    rcases List.mem_cons.mp h with h0 | h0
    · subst h0
      obtain ⟨id0, sc, cat, mat, q, d, ps, st0⟩ := r
      cases id0 <;> cases st0 <;> cases ps <;> simp [ensureStep]
    · exact ih (ensureStep r c).2.1 r' h0

/-- Helper: the repair is the identity, with the write flag off, on any list
whose rows are already repaired. -/
theorem ensureList_of_repaired (l : List Req) :
    ∀ c2 : Nat,
      (∀ r ∈ l, r.id.isSome ∧ r.status.isSome ∧
        ∃ s, r.ps_number = some (PVal.str s)) →
      ensureList l c2 = (l, c2, false) := by
  induction l with
  | nil =>
    intro c2 h
    rfl
  | cons r t ih =>
    intro c2 h
    have hr := h r (List.mem_cons_self r t)
    rw [ensureList_cons, ensureStep_fixed r c2 hr.1 hr.2.1 hr.2.2]
    dsimp only
    rw [ih c2 (fun r2 h2 => h r2 (List.mem_cons_of_mem r h2))]
    simp

/-- Helper: the full per-row relation between an input row and its repaired
form: missing ids get a fresh UUID at or after the initial counter, present
ids are kept, missing status becomes Pending, present status is kept, a
missing owner becomes "unknown", and a present owner is coerced with
`str(...)`. -/
theorem ensureList_forall2 (rows : List Req) (c : Nat) :
    List.Forall₂ (fun r r' =>
        (r.id = none → ∃ k, c ≤ k ∧ r'.id = some (PVal.uuid k))
      ∧ (∀ v, r.id = some v → r'.id = some v)
      ∧ (r.status = none → r'.status = some (PVal.str "Pending"))
      ∧ (∀ v, r.status = some v → r'.status = some v)
      ∧ (r.ps_number = none → r'.ps_number = some (PVal.str "unknown"))
      ∧ (∀ v, r.ps_number = some v → r'.ps_number = some (PVal.str (pyStr v))))
      rows (ensureList rows c).1 := by
  induction rows generalizing c with
  | nil => exact List.Forall₂.nil
  | cons r t ih =>
    rw [ensureList_cons]
    refine List.Forall₂.cons ⟨?_, ?_, ?_, ?_, ?_, ?_⟩ ?_
    · intro h
      exact ⟨c, Nat.le_refl c, by simp [ensureStep, h]⟩
    · intro v h
      simp [ensureStep, h]
    · intro h
      simp [ensureStep, h]
    · intro v h
      simp [ensureStep, h]
    · intro h
      simp [ensureStep, h, pyStr]
    · intro v h
      simp [ensureStep, h]
    · refine List.Forall₂.imp ?_ (ih (ensureStep r c).2.1)
      intro a b hab
      refine ⟨fun h => ?_, hab.2⟩
      obtain ⟨k, hk, hid⟩ := hab.1 h
      exact ⟨k, Nat.le_trans (ensureStep_counter_le r c) hk, hid⟩

/-- Helper: the per-row `changed` contribution is exactly "some required key
was missing"; the `str(...)` coercion of a present owner contributes
nothing. -/
theorem ensureStep_flag_iff (r : Req) (c : Nat) :
    ((ensureStep r c).2.2 = true) ↔
      (r.id = none ∨ r.status = none ∨ r.ps_number = none) := by
  obtain ⟨id0, sc, cat, mat, q, d, ps, st0⟩ := r
  cases id0 <;> cases st0 <;> cases ps <;> simp [ensureStep]

/-- Helper: the repair's write flag is on exactly when some row was missing a
required key. -/
theorem ensureList_flag_iff (rows : List Req) (c : Nat) :
    ((ensureList rows c).2.2 = true) ↔
      ∃ r ∈ rows, r.id = none ∨ r.status = none ∨ r.ps_number = none := by
  induction rows generalizing c with
  | nil => simp [ensureList]
  | cons r t ih =>
    rw [ensureList_cons]
    simp only [Bool.or_eq_true, ensureStep_flag_iff, ih (ensureStep r c).2.1,
      List.mem_cons]
    constructor
    · rintro (h | ⟨r2, hr2, h2⟩)
      · exact ⟨r, Or.inl rfl, h⟩
      · exact ⟨r2, Or.inr hr2, h2⟩
    · rintro ⟨r2, hr2 | hr2, h2⟩
      · subst hr2
        exact Or.inl h2
      · exact Or.inr ⟨r2, hr2, h2⟩

/-- C4: the load-time repair assigns a fresh UUID to every row missing `id`,
status Pending to every row missing `status`, owner `"unknown"` to every row
missing `ps_number`, keeps present values (owners up to `str(...)` coercion);
the resulting ids are pairwise distinct (given non-colliding inputs); and the
repair is idempotent: on an already-repaired list it returns the list
unchanged with the write flag off, so repeated loads are stable. -/
theorem ensure_repair_correct (rows : List Req) (c : Nat)
    (hfresh : ∀ r ∈ rows, ∀ k, c ≤ k → r.id ≠ some (PVal.uuid k))
    (hnodup : (rows.filterMap Req.id).Nodup) :
    List.Forall₂ (fun r r' =>
        (r.id = none → ∃ k, c ≤ k ∧ r'.id = some (PVal.uuid k))
      ∧ (∀ v, r.id = some v → r'.id = some v)
      ∧ (r.status = none → r'.status = some (PVal.str "Pending"))
      ∧ (r.ps_number = none → r'.ps_number = some (PVal.str "unknown")))
      rows (ensureList rows c).1
    ∧ ((ensureList rows c).1.map Req.id).Nodup
    ∧ ∀ c2, ensureList (ensureList rows c).1 c2
        = ((ensureList rows c).1, c2, false) := by
  refine ⟨?_, ensureList_ids_nodup rows c hfresh hnodup, ?_⟩
  · refine List.Forall₂.imp ?_ (ensureList_forall2 rows c)
    intro a b hab
    exact ⟨hab.1, hab.2.1, hab.2.2.1, hab.2.2.2.2.1⟩
  · intro c2
    exact ensureList_of_repaired _ c2 (ensureList_all_repaired rows c)

/-- Witness for C4: the repair of a bare legacy row and a row with a string
id, applied at counter 0. -/
theorem ensure_repair_correct_witness :
    List.Forall₂ (fun r r' =>
        (r.id = none → ∃ k, 0 ≤ k ∧ r'.id = some (PVal.uuid k))
      ∧ (∀ v, r.id = some v → r'.id = some v)
      ∧ (r.status = none → r'.status = some (PVal.str "Pending"))
      ∧ (r.ps_number = none → r'.ps_number = some (PVal.str "unknown")))
      [reqBare, reqLegacy] (ensureList [reqBare, reqLegacy] 0).1
    ∧ ((ensureList [reqBare, reqLegacy] 0).1.map Req.id).Nodup
    ∧ ∀ c2, ensureList (ensureList [reqBare, reqLegacy] 0).1 c2
        = ((ensureList [reqBare, reqLegacy] 0).1, c2, false) :=
  ensure_repair_correct [reqBare, reqLegacy] 0
    (by
      intro r hr k hk
      simp only [List.mem_cons, List.not_mem_nil, or_false] at hr
      rcases hr with rfl | rfl <;> simp [reqBare, reqLegacy])
    (by decide)

/-- C10: the repair's write to disk happens exactly when some row was missing
one of `id`, `status`, `ps_number`; a present but non-string owner is coerced
to a string in the returned rows without, by itself, triggering the write. -/
theorem ensure_write_iff_missing_field (rows : List Req) (c : Nat) :
    ((ensureList rows c).2.2 = true ↔
      ∃ r ∈ rows, r.id = none ∨ r.status = none ∨ r.ps_number = none)
    ∧ List.Forall₂ (fun r r' => ∀ v, r.ps_number = some v →
        r'.ps_number = some (PVal.str (pyStr v))) rows (ensureList rows c).1 := by
  refine ⟨ensureList_flag_iff rows c, ?_⟩
  refine List.Forall₂.imp ?_ (ensureList_forall2 rows c)
  intro a b hab
  exact hab.2.2.2.2.2

/-! ### Helpers for the Submit Request flow -/

/-- Helper: a staged item built by Add Another Item is a fixed point of the
submit-time normalization: its id is truthy, its status is the truthy
`"Pending"`, and its owner is already `str(user["ps_number"])`. -/
theorem normalizeItem_staged (user : SessionUser) (sp : ItemSpec) (k c : Nat) :
    normalizeItem user (addAnotherItem user sp k) c
      = (addAnotherItem user sp k, c) := rfl

/-- Helper: submitting a batch of items that normalization leaves unchanged
appends the batch to the store, in order, at unchanged counter. -/
theorem submitRequestBatch_of_fixed (user : SessionUser) (batch : List Req)
    (h : ∀ item ∈ batch, ∀ c : Nat, normalizeItem user item c = (item, c)) :
    ∀ (store : List Req) (c : Nat),
      submitRequestBatch user batch store c = (store ++ batch, c) := by
  induction batch with
  | nil =>
    intro store c
    simp [submitRequestBatch]
  | cons item t ih =>
    intro store c
    rw [submitRequestBatch, h item (List.mem_cons_self item t) c]
    rw [ih (fun i hi => h i (List.mem_cons_of_mem item hi)) (store ++ [item]) c]
    simp

/-- Helper: every item of the staged batch is an Add Another Item record with
a counter value at or after the starting counter. -/
theorem buildBatch_mem (user : SessionUser) (specs : List ItemSpec) (c : Nat)
    (item : Req) (h : item ∈ (buildBatch user specs c).1) :
    ∃ sp k, sp ∈ specs ∧ c ≤ k ∧ item = addAnotherItem user sp k := by
  induction specs generalizing c with
  | nil => cases h
  | cons sp t ih =>
    rcases List.mem_cons.mp h with h0 | h0
    · exact ⟨sp, c, List.mem_cons_self sp t, Nat.le_refl c, h0⟩
    · rcases ih (c + 1) h0 with ⟨sp2, k, hsp2, hk, he⟩
      exact ⟨sp2, k, List.mem_cons_of_mem sp hsp2,
        Nat.le_trans (Nat.le_succ c) hk, he⟩

/-- Helper: the ids of a staged batch are pairwise distinct. -/
theorem buildBatch_ids_nodup (user : SessionUser) (specs : List ItemSpec)
    (c : Nat) : (((buildBatch user specs c).1).map Req.id).Nodup := by
  induction specs generalizing c with
  | nil => simp [buildBatch]
  | cons sp t ih =>
    simp only [buildBatch, List.map_cons, List.nodup_cons]
    refine ⟨?_, ih (c + 1)⟩
    intro hmem
    rcases List.mem_map.mp hmem with ⟨item, hitem, hideq⟩
    rcases buildBatch_mem user t (c + 1) item hitem with ⟨sp2, k, -, hk, he⟩
    rw [he] at hideq
    have : k = c := by
      simpa [addAnotherItem] using hideq
    omega

/-- Helper: in a duplicate-free list of optional ids, a member id is counted
exactly once. -/
theorem count_id_eq_one (l : List (Option PVal)) (a : Option PVal)
    (hnd : l.Nodup) (ha : a ∈ l) : List.count a l = 1 := by
  induction l with
  | nil => cases ha
  | cons b t ih =>
    rcases List.mem_cons.mp ha with rfl | ha2
    · rw [List.count_cons_self, List.count_eq_zero.mpr (List.nodup_cons.mp hnd).1]
    · have hne : a ≠ b := by
        intro he
        subst he
        exact (List.nodup_cons.mp hnd).1 ha2
      rw [List.count_cons_of_ne hne]
      exact ih (List.nodup_cons.mp hnd).2 ha2

/-- C3: submitting a staged batch appends exactly the staged records to the
store, and every appended record has status Pending, owner
`str(user["ps_number"])`, and a freshly generated id occurring exactly once
in the persisted collection, regardless of the caller-chosen school,
category, material, quantity and date values. -/
theorem submit_creates_pending_owned_fresh (user : SessionUser)
    (specs : List ItemSpec) (c0 : Nat) (store : List Req)
    (hfresh : ∀ r ∈ store, ∀ k, c0 ≤ k → r.id ≠ some (PVal.uuid k)) :
    (submitRequestBatch user (buildBatch user specs c0).1 store
        (buildBatch user specs c0).2).1
      = store ++ (buildBatch user specs c0).1
    ∧ ∀ item ∈ (buildBatch user specs c0).1,
        item.status = some (PVal.str "Pending")
        ∧ item.ps_number = some (PVal.str (pyStr user.ps_number))
        ∧ List.count item.id
            ((store ++ (buildBatch user specs c0).1).map Req.id) = 1 := by
  have hfix : ∀ item ∈ (buildBatch user specs c0).1, ∀ c : Nat,
      normalizeItem user item c = (item, c) := by
    intro item hitem c
    rcases buildBatch_mem user specs c0 item hitem with ⟨sp, k, -, -, he⟩
    rw [he]
    exact normalizeItem_staged user sp k c
  refine ⟨?_, ?_⟩
  · rw [submitRequestBatch_of_fixed user (buildBatch user specs c0).1 hfix
      store (buildBatch user specs c0).2]
  · intro item hitem
    rcases buildBatch_mem user specs c0 item hitem with ⟨sp, k, -, hk, he⟩
    constructor
    · rw [he]
      rfl
    constructor
    · rw [he]
      rfl
    rw [List.map_append, List.count_append]
    have hstore : List.count item.id (store.map Req.id) = 0 := by
      rw [List.count_eq_zero]
      intro hmem
      rcases List.mem_map.mp hmem with ⟨r, hr, hideq⟩
      have hru : r.id = some (PVal.uuid k) := by
        rw [hideq, he]
        rfl
      exact hfresh r hr k hk hru
    have hbatch : List.count item.id
        (((buildBatch user specs c0).1).map Req.id) = 1 :=
      count_id_eq_one _ _ (buildBatch_ids_nodup user specs c0)
        (List.mem_map_of_mem Req.id hitem)
    rw [hstore, hbatch]

/-- Witness for C3: coach PS2 stages one item and submits it over a store
holding one string-id request. -/
theorem submit_creates_pending_owned_fresh_witness :
    (submitRequestBatch coachUser (buildBatch coachUser [specA] 0).1 [reqOfCoach]
        (buildBatch coachUser [specA] 0).2).1
      = [reqOfCoach] ++ (buildBatch coachUser [specA] 0).1
    ∧ ∀ item ∈ (buildBatch coachUser [specA] 0).1,
        item.status = some (PVal.str "Pending")
        ∧ item.ps_number = some (PVal.str (pyStr coachUser.ps_number))
        ∧ List.count item.id
            (([reqOfCoach] ++ (buildBatch coachUser [specA] 0).1).map Req.id) = 1 :=
  submit_creates_pending_owned_fresh coachUser [specA] 0 [reqOfCoach]
    (by
      intro r hr k hk
      simp only [List.mem_cons, List.not_mem_nil, or_false] at hr
      subst hr
      simp [reqOfCoach])

end SJJP
